import Mathlib

set_option maxRecDepth 8000

/-!
Shallow embedding of the core of pdb-intersect (src/lib_peeringdb.py and
src/pdb-intersect.py).  Python strings are modelled as lists of characters
(`Str`), dictionaries fetched from PeeringDB as records, and the Directory
Query Facade (the HTTP layer) as filters over an in-memory directory.
Fallible code is embedded in `Except` / `Option`.
-/

abbrev Str := List Char

/-- Python str.split(sep) for a one-character separator: every occurrence of
the separator splits, adjacent separators yield empty components, and the
result is never the empty list. -/
def splitOnChar (c : Char) : Str → List Str
  | [] => [[]]
  | x :: xs =>
    match splitOnChar c xs with
    | [] => [[]]
    | r :: rs => if x = c then [] :: r :: rs else (x :: r) :: rs

/-- Python sep.join(parts). -/
def joinWith (c : Char) : List Str → Str
  | [] => []
  | [p] => p
  | p :: ps => p ++ c :: joinWith c ps

/-- Python re.sub("^0*", "", s) (also re.sub("^0+", "", s)): remove the
leading run of zero characters. -/
def subLeadingZeros (s : Str) : Str := s.dropWhile (· = '0')

/-- One component of the normalisation loops in unexplode_ip (lines 325-328)
and getixp_by_ipv6 (lines 288-289): strip leading zeros, an empty result
becomes "0". -/
def stripGroup (s : Str) : Str :=
  let t := subLeadingZeros s
  if t = [] then ['0'] else t

/-- lib_peeringdb.unexplode_ip (lines 312-331): choose the separator by
arity (4 dot components, else more than one colon component, else return
unchanged) and strip the leading zeros of every component, accumulating the
results as the Python loop does. -/
def unexplode_ip (ip : Str) : Str :=
  let ips := splitOnChar '.' ip
  if ips.length = 4 then
    joinWith '.' (ips.foldl (fun acc i => acc ++ [stripGroup i]) [])
  else
    let ips2 := splitOnChar ':' ip
    if 1 < ips2.length then
      joinWith ':' (ips2.foldl (fun acc i => acc ++ [stripGroup i]) [])
    else ip

/-- Python str.join for a multi-character separator. -/
def joinWithSep (sep : Str) : List Str → Str
  | [] => []
  | [p] => p
  | p :: ps => p ++ sep ++ joinWithSep sep ps

/-- Decimal value of a digit string (Python int(s)). -/
def decVal (s : Str) : Nat := s.foldl (fun a c => 10 * a + (c.toNat - 48)) 0

/-- One octet of an IPv4 address, as the ipaddress library parses it: only
digits, at most 3 of them, no leading zero unless the octet is exactly "0",
value at most 255. -/
def parseOctet (s : Str) : Option Nat :=
  if s ≠ [] ∧ s.all (·.isDigit) ∧ s.length ≤ 3 ∧
      (s.length ≤ 1 ∨ s.headD 'x' ≠ '0') ∧ decVal s ≤ 255 then
    some (decVal s)
  else none

/-- ipaddress.IPv4Address(s) as a 32-bit value: exactly 4 dot components,
each a valid octet. -/
def parseV4Addr (s : Str) : Option Nat :=
  match splitOnChar '.' s with
  | [a, b, c, d] => do
      let va ← parseOctet a
      let vb ← parseOctet b
      let vc ← parseOctet c
      let vd ← parseOctet d
      pure (((va * 256 + vb) * 256 + vc) * 256 + vd)
  | _ => none

def isHexDigitChar (c : Char) : Bool :=
  c.isDigit || ('a' ≤ c && c ≤ 'f') || ('A' ≤ c && c ≤ 'F')

def hexDigitVal (c : Char) : Nat :=
  if c.isDigit then c.toNat - 48
  else if 'a' ≤ c ∧ c ≤ 'f' then c.toNat - 87
  else c.toNat - 55

/-- Hexadecimal value of a hex-digit string (Python int(s, 16)). -/
def hexVal (s : Str) : Nat := s.foldl (fun a c => 16 * a + hexDigitVal c) 0

/-- One hextet group of an IPv6 address: non-empty, only hex digits, at
most 4 of them. -/
def parseHextet (s : Str) : Option Nat :=
  if s ≠ [] ∧ s.all isHexDigitChar ∧ s.length ≤ 4 then some (hexVal s) else none

/-- The embedded-IPv4 rewriting step of ipaddress IPv6 parsing: when the
last colon part contains a dot it must parse as an IPv4 address and is
replaced by its two hextets (rendered without padding, as Python "%x"). -/
def embedLast (parts0 : List Str) : Option (List Str) :=
  let lastp := parts0.getLastD []
  if '.' ∈ lastp then
    match parseV4Addr lastp with
    | some v => some (parts0.dropLast ++
        [Nat.toDigits 16 (v / 65536 % 65536), Nat.toDigits 16 (v % 65536)])
    | none => none
  else some parts0

/-- Indices of empty parts strictly inside the colon-part list (the
candidate positions of the "::" compression). -/
def middleEmptyIdxs (parts : List Str) : List Nat :=
  (List.range parts.length).filter
    (fun i => decide (1 ≤ i ∧ i + 1 < parts.length ∧ parts.getD i ['x'] = []))

/-- Big-endian assembly of hextets around the compressed zero run. -/
def assembleV6 (hi : List Nat) (skipped : Nat) (lo : List Nat) : Nat :=
  ((hi ++ List.replicate skipped 0) ++ lo).foldl (fun a h => a * 65536 + h) 0

/-- Python's parts_hi after the leading-empty adjustment: the number of
groups before the "::" at index i (0 when the address starts with "::"). -/
def partsHi (parts : List Str) (i : Nat) : Nat :=
  if parts.headD ['x'] = [] then 0 else i

/-- Python's parts_lo after the trailing-empty adjustment: the number of
groups after the "::" at index i (0 when the address ends with "::"). -/
def partsLo (parts : List Str) (i : Nat) : Nat :=
  if parts.getLastD ['x'] = [] then 0 else parts.length - i - 1

/-- ipaddress.IPv6Address(s) as a 128-bit value, following the library's
algorithm: split on colons (at least 3 parts), rewrite an embedded IPv4
tail, allow at most 9 parts, locate at most one empty middle part as the
"::" position (a leading or trailing empty part is only allowed next to
it), require the remaining group count to leave at least one compressed
zero group, and otherwise require exactly 8 non-empty groups. -/
def parseV6Addr (s : Str) : Option Nat :=
  let parts0 := splitOnChar ':' s
  if parts0.length < 3 then none
  else
    match embedLast parts0 with
    | none => none
    | some parts =>
      if 9 < parts.length then none
      else
        match middleEmptyIdxs parts with
        | [] =>
          if parts.length = 8 ∧ parts.headD ['x'] ≠ [] ∧ parts.getLastD ['x'] ≠ [] then
            match parts.mapM parseHextet with
            | some vs => some (assembleV6 vs 0 [])
            | none => none
          else none
        | [i] =>
          if parts.headD ['x'] = [] ∧ i ≠ 1 then none
          else if parts.getLastD ['x'] = [] ∧ i + 2 ≠ parts.length then none
          else if 8 ≤ partsHi parts i + partsLo parts i then none
          else
            match (parts.take (partsHi parts i)).mapM parseHextet,
                (parts.drop (parts.length - partsLo parts i)).mapM parseHextet with
            | some hv, some lv =>
              some (assembleV6 hv (8 - (partsHi parts i + partsLo parts i)) lv)
            | _, _ => none
        | _ => none

/-- ipaddress.ip_address(s): try IPv4, then IPv6; the result carries the
version and the numeric value. -/
def parseIPAddr (s : Str) : Option (Nat × Nat) :=
  match parseV4Addr s with
  | some v => some (4, v)
  | none =>
    match parseV6Addr s with
    | some v => some (6, v)
    | none => none

/-- A parsed network: version (4 or 6), network address value, length. -/
structure IPNet where
  version : Nat
  addr : Nat
  plen : Nat
deriving DecidableEq

def bitsOf (ver : Nat) : Nat := if ver = 4 then 32 else 128

/-- A prefix length in CIDR notation: a non-empty digit string whose value
is at most the address width. -/
def parsePlen (maxLen : Nat) (s : Str) : Option Nat :=
  if s ≠ [] ∧ s.all (·.isDigit) ∧ decVal s ≤ maxLen then some (decVal s) else none

/-- ipaddress.IPv4Network(s) with the default strict=True: at most one
slash, a valid address part, a prefix length of at most 32, and no host
bits set.  (The netmask/hostmask notation for the length is not used by
this program and is not modelled.) -/
def parseV4Net (s : Str) : Option IPNet :=
  match splitOnChar '/' s with
  | [a] => (parseV4Addr a).map (fun v => IPNet.mk 4 v 32)
  | [a, p] => do
      let v ← parseV4Addr a
      let pl ← parsePlen 32 p
      if v % 2 ^ (32 - pl) = 0 then some (IPNet.mk 4 v pl) else none
  | _ => none

/-- ipaddress.IPv6Network(s) with the default strict=True. -/
def parseV6Net (s : Str) : Option IPNet :=
  match splitOnChar '/' s with
  | [a] => (parseV6Addr a).map (fun v => IPNet.mk 6 v 128)
  | [a, p] => do
      let v ← parseV6Addr a
      let pl ← parsePlen 128 p
      if v % 2 ^ (128 - pl) = 0 then some (IPNet.mk 6 v pl) else none
  | _ => none

/-- ipaddress.ip_network(s) (strict): try IPv4, then IPv6. -/
def parseNet (s : Str) : Option IPNet :=
  match parseV4Net s with
  | some net => some net
  | none => parseV6Net s

def broadcastOf (net : IPNet) : Nat :=
  net.addr + 2 ^ (bitsOf net.version - net.plen) - 1

/-- a.subnet_of(b) for networks of the same version: b's network address
is at most a's and b's broadcast address is at least a's. -/
def subnetOfB (a b : IPNet) : Bool :=
  decide (b.addr ≤ a.addr) && decide (broadcastOf a ≤ broadcastOf b)

/-- The single-address host network of an address value. -/
def hostNet (ver n : Nat) : IPNet := IPNet.mk ver n (bitsOf ver)

/-- The Python exceptions the embedded resolver can raise. -/
inductive PyErr where
  | valueError
  | typeError
  | indexError
deriving DecidableEq

instance exceptDecEq {ε α : Type} [DecidableEq ε] [DecidableEq α] :
    DecidableEq (Except ε α) := fun x y =>
  match x, y with
  | Except.error a, Except.error b =>
    if h : a = b then isTrue (congrArg Except.error h)
    else isFalse (fun hh => h (Except.error.inj hh))
  | Except.ok a, Except.ok b =>
    if h : a = b then isTrue (congrArg Except.ok h)
    else isFalse (fun hh => h (Except.ok.inj hh))
  | Except.error _, Except.ok _ => isFalse (fun hh => Except.noConfusion hh)
  | Except.ok _, Except.error _ => isFalse (fun hh => Except.noConfusion hh)

/-- A Prefix record (ixpfx): identifier, parent exchange-lan identifier,
and the CIDR prefix text. -/
structure Ixpfx where
  id : Nat
  ixlan_id : Nat
  prefixText : Str
deriving DecidableEq

/-- An ExchangeLan record (ixlan): identifier and parent exchange-point
identifier. -/
structure Ixlan where
  id : Nat
  ix_id : Nat
deriving DecidableEq

/-- An ExchangePoint record (ix). -/
structure Ixp where
  id : Nat
  name : Str
deriving DecidableEq

/-- The read-only directory snapshot behind the Query Facade. -/
structure Env where
  pfxs : List Ixpfx
  lans : List Ixlan
  ixps : List Ixp

/-- Modelled from the spec: getixpfxlist_by_partial (src lines 181-183)
queries the HTTP API with prefix__startswith, which is absent from src/;
per spec section 6 the facade is an exhaustive starts-with text filter
over the Prefix directory, in directory order. -/
def getixpfxlist_by_start (env : Env) (key : Str) : List Ixpfx :=
  env.pfxs.filter (fun q => List.isPrefixOf key q.prefixText)

/-- Modelled from the spec: getixlan_by_id, called at src line 213, is not
defined in src/; per the spec it is the facade's exact-match identifier
lookup returning the (possibly empty) collection of ExchangeLan records. -/
def getixlan_by_id (env : Env) (i : Nat) : List Ixlan :=
  env.lans.filter (fun l => l.id = i)

/-- Modelled from the spec: getixp_by_id, called at src line 217, is not
defined in src/; it is the facade's exact-match identifier lookup for
ExchangePoint records. -/
def getixp_by_id (env : Env) (i : Nat) : List Ixp :=
  env.ixps.filter (fun x => x.id = i)

/-- lib_peeringdb.one_ixp_by_ixpfx (lines 207-219): resolve the prefix's
exchange-lan identifier, then the first lan's exchange-point identifier;
an empty collection at either hop yields None (the second hop by falling
off the end of the function). -/
def one_ixp_by_ixpfx (env : Env) (px : Ixpfx) : Option Ixp :=
  match getixlan_by_id env px.ixlan_id with
  | [] => none
  | lan :: _ =>
    match getixp_by_id env lan.ix_id with
    | [] => none
    | x :: _ => some x

/-- Modelled from the spec: getixp_by_ixpfx, called at src lines 248 and
309, is absent from src/; the spec's resolution step 7 (prefix →
exchange-lan → exchange point, not-found on a broken chain) is exactly
what one_ixp_by_ixpfx implements. -/
def getixp_by_ixpfx (env : Env) (px : Ixpfx) : Option Ixp :=
  one_ixp_by_ixpfx env px

/-- The candidate scan of getixp_by_ipv4 (lines 237-244) and getixp_by_ipv6
(lines 299-306), with Python's loop-variable scoping: after a full loop
without break the loop variable holds the last candidate, so a non-empty
candidate list always leaves some candidate selected and only an empty
list leaves None.  ip_network parse failures are skipped by the
try/except; subnet_of between different address versions raises TypeError
outside the try. -/
def scanLoop (h : IPNet) : List Ixpfx → Except PyErr (Option Ixpfx)
  | [] => Except.ok none
  | q :: qs =>
    let cont : Except PyErr (Option Ixpfx) :=
      match qs with
      | [] => Except.ok (some q)
      | q2 :: qs2 => scanLoop h (q2 :: qs2)
    match parseNet q.prefixText with
    | none => cont
    | some net =>
      if net.version ≠ h.version then Except.error PyErr.typeError
      else if subnetOfB h net then Except.ok (some q) else cont

/-- The /16 coarse key of getixp_by_ipv4 (lines 230-231): the first two
dot components joined by a dot; none mirrors the IndexError raised when
there are fewer than two components. -/
def v4CoarseKey (s : Str) : Option Str :=
  match splitOnChar '.' s with
  | a :: b :: _ => some (a ++ '.' :: b)
  | _ => none

/-- lib_peeringdb.getixp_by_ipv4 (lines 223-248). -/
def getixp_by_ipv4 (env : Env) (v4 : Str) : Except PyErr (Option Ixp) :=
  match parseNet (v4 ++ ['/', '3', '2']) with
  | none => Except.error PyErr.valueError
  | some v4net =>
    match v4CoarseKey v4 with
    | none => Except.error PyErr.indexError
    | some key =>
      match scanLoop v4net (getixpfxlist_by_start env key) with
      | Except.error e => Except.error e
      | Except.ok none => Except.ok none
      | Except.ok (some q) => Except.ok (getixp_by_ixpfx env q)

/-- Decimal rendering of a number (Python str(n)). -/
def decStr (n : Nat) : Str := Nat.toDigits 10 n

def hexDigitChar (n : Nat) : Char :=
  if n < 10 then Char.ofNat (48 + n) else Char.ofNat (87 + n)

/-- A zero-padded 4-digit hextet group. -/
def hextet4 (n : Nat) : Str :=
  [hexDigitChar (n / 4096 % 16), hexDigitChar (n / 256 % 16),
   hexDigitChar (n / 16 % 16), hexDigitChar (n % 16)]

/-- Python ipaddress .exploded: the fully zero-padded 8-group form for
IPv6, the dotted decimal form for IPv4. -/
def exploded (ver n : Nat) : Str :=
  if ver = 4 then
    joinWith '.' [decStr (n / 16777216 % 256), decStr (n / 65536 % 256),
      decStr (n / 256 % 256), decStr (n % 256)]
  else
    joinWith ':' ((List.range 8).map (fun i => hextet4 (n / 2 ^ (16 * (7 - i)) % 65536)))

/-- The body of the trimming loop of getixp_by_ipv6 (lines 285-290): the
state is the atend flag and the result list; a "0000" group is skipped
while still at the end, any other group is stripped and inserted at the
front of the result, clearing atend. -/
def v6step (st : Bool × List Str) (part : Str) : Bool × List Str :=
  if part = ['0', '0', '0', '0'] ∧ st.1 then st
  else (false, stripGroup part :: st.2)

/-- The coarse-key trimming loop of getixp_by_ipv6 (lines 283-290): walk
the kept groups back to front applying v6step, starting with atend set and
an empty result. -/
def v6walk (parts : List Str) : List Str :=
  (parts.reverse.foldl v6step (true, [])).2

/-- The coarse key computed by getixp_by_ipv6 (lines 269-292): explode the
address, keep the first 6 groups, trim and shorten them, and join with
colons (the join again takes at most 6 entries, line 292). -/
def coarseKeyV6 (v6 : Str) : Option Str :=
  match parseIPAddr v6 with
  | none => none
  | some (ver, n) =>
    some (joinWith ':' ((v6walk ((splitOnChar ':' (exploded ver n)).take 6)).take 6))

/-- lib_peeringdb.getixp_by_ipv6 (lines 263-309). -/
def getixp_by_ipv6 (env : Env) (v6 : Str) : Except PyErr (Option Ixp) :=
  match parseNet (v6 ++ ['/', '1', '2', '8']), coarseKeyV6 v6 with
  | some v6net, some key =>
    match scanLoop v6net (getixpfxlist_by_start env key) with
    | Except.error e => Except.error e
    | Except.ok none => Except.ok none
    | Except.ok (some q) => Except.ok (getixp_by_ixpfx env q)
  | _, _ => Except.error PyErr.valueError

/-- lib_peeringdb.getixp_by_ip (lines 334-346): normalise, parse to find
the family, dispatch. -/
def getixp_by_ip (env : Env) (ip : Str) : Except PyErr (Option Ixp) :=
  let ip2 := unexplode_ip ip
  match parseIPAddr ip2 with
  | none => Except.error PyErr.valueError
  | some (ver, _) =>
    if ver = 4 then getixp_by_ipv4 env ip2
    else if ver = 6 then getixp_by_ipv6 env ip2
    else Except.ok none

/-- The coarse key computed on the getixp_by_ip path: normalise first,
then the family's key computation. -/
def coarse_key (s : Str) : Option Str :=
  let t := unexplode_ip s
  match parseIPAddr t with
  | none => none
  | some (ver, _) => if ver = 4 then v4CoarseKey t else coarseKeyV6 t

/-- Does a candidate parse to a network of the address's version that
contains the address's host network (the break condition of the scan)? -/
def candidateMatches (ver n : Nat) (q : Ixpfx) : Bool :=
  match parseNet q.prefixText with
  | none => false
  | some net => decide (net.version = ver) && subnetOfB (hostNet ver n) net

/-- Does a candidate either fail to parse or parse to the given version
(so the scan cannot raise TypeError on it)? -/
def candidateVersionOk (ver : Nat) (q : Ixpfx) : Bool :=
  match parseNet q.prefixText with
  | none => true
  | some net => decide (net.version = ver)

/-- An Attachment record (netixlan) as used by the intersector. -/
structure Netixlan where
  ixlan_id : Nat
  asn : Nat
  ipaddr4 : Str
  ipaddr6 : Str
  name : Str
deriving DecidableEq

/-- The insertion-ordered key list of the per-ixlan grouping dictionaries
built by ixlan_intersect (lines 119-131): first-occurrence order, no
duplicates. -/
def dictKeys (l : List Netixlan) : List Nat :=
  l.foldl (fun ks n => if n.ixlan_id ∈ ks then ks else ks ++ [n.ixlan_id]) []

/-- One bucket of a grouping dictionary: all attachments with the given
exchange-lan identifier, in input order. -/
def bucketOf (l : List Netixlan) (k : Nat) : List Netixlan :=
  l.filter (fun n => n.ixlan_id = k)

/-- One rendered attachment (lines 147-148). -/
def renderAttachment (n : Netixlan) : Str :=
  joinWithSep ['\n']
    ["ASN:  ".data ++ decStr n.asn,
     "IPv4: ".data ++ n.ipaddr4,
     "IPv6: ".data ++ n.ipaddr6]

/-- One output row: exchange name, side-1 column, side-2 column. -/
abbrev Row := Str × Str × Str

/-- pdb-intersect.ixlan_intersect (lines 115-155), as the list of rows
added to the output table: group both sides by exchange-lan identifier,
intersect the key sets, and emit one merged row per common key.  Python
iterates a set whose order is unspecified; the common keys are modelled in
side-1 first-insertion order.  The first bucket of a common key is never
empty, so the headD default is never used. -/
def ixlan_intersect (netixlan1 netixlan2 : List Netixlan) : List Row :=
  let common := (dictKeys netixlan1).filter (fun k => k ∈ dictKeys netixlan2)
  common.map (fun k =>
    let n1 := bucketOf netixlan1 k
    let n2 := bucketOf netixlan2 k
    let col1 := (n1.headD (Netixlan.mk 0 0 [] [] [])).name
    (col1, joinWithSep ['\n', '\n'] (n1.map renderAttachment),
      joinWithSep ['\n', '\n'] (n2.map renderAttachment)))

/-- The trimming of the first six exploded groups as the spec states it:
drop trailing all-zero groups, then strip leading zeros of the
survivors. -/
def coarseKeyV6SpecTrim (groups : List Str) : List Str :=
  ((groups.reverse.dropWhile (· = ['0', '0', '0', '0'])).reverse).map stripGroup

theorem foldl_append_eq_map (f : Str → Str) (l : List Str) :
    ∀ acc : List Str, l.foldl (fun a i => a ++ [f i]) acc = acc ++ l.map f := by
  induction l with
  | nil => intro acc; simp
  | cons x xs ih => intro acc; simp [List.foldl, ih]

theorem splitOnChar_ne_nil (c : Char) (s : Str) : splitOnChar c s ≠ [] := by
  cases s with
  | nil => simp [splitOnChar]
  | cons x xs =>
    simp only [splitOnChar]
    rcases h : splitOnChar c xs with _ | ⟨r, rs⟩
    · simp
    · by_cases hx : x = c <;> simp [hx]

theorem joinWith_splitOnChar (c : Char) (s : Str) :
    joinWith c (splitOnChar c s) = s := by
  induction s with
  | nil => simp [splitOnChar, joinWith]
  | cons x xs ih =>
    simp only [splitOnChar]
    rcases h : splitOnChar c xs with _ | ⟨r, rs⟩
    · exact absurd h (splitOnChar_ne_nil c xs)
    · rw [h] at ih
      by_cases hx : x = c
      · subst hx
        simp only [if_pos rfl, joinWith]
        cases rs <;> simp_all [joinWith]
      · simp only [if_neg hx]
        cases rs <;> simp_all [joinWith]

theorem mem_splitOnChar_not_mem (c : Char) (s : Str) :
    ∀ p ∈ splitOnChar c s, c ∉ p := by
  induction s with
  | nil => simp [splitOnChar]
  | cons x xs ih =>
    simp only [splitOnChar]
    rcases h : splitOnChar c xs with _ | ⟨r, rs⟩
    · exact absurd h (splitOnChar_ne_nil c xs)
    · rw [h] at ih
      by_cases hx : x = c
      · subst hx
        simp only [if_pos rfl]
        intro p hp
        rcases List.mem_cons.mp hp with hp | hp
        · simp [hp]
        · exact ih p hp
      · simp only [if_neg hx]
        intro p hp
        rcases List.mem_cons.mp hp with hp | hp
        · subst hp
          intro hc
          rcases List.mem_cons.mp hc with hc | hc
          · exact hx hc.symm
          · exact ih r (List.mem_cons_self r rs) hc
        · exact ih p (List.mem_cons_of_mem r hp)

theorem splitOnChar_no_sep (c : Char) (p : Str) (hp : c ∉ p) :
    splitOnChar c p = [p] := by
  induction p with
  | nil => simp [splitOnChar]
  | cons x xs ihp =>
    have hx : ¬ x = c := fun h => hp (by simp [h])
    have hxs : c ∉ xs := fun h => hp (List.mem_cons_of_mem x h)
    simp only [splitOnChar, ihp hxs]
    simp [hx]

theorem splitOnChar_append_sep (c : Char) (p t : Str) (hp : c ∉ p) :
    splitOnChar c (p ++ c :: t) = p :: splitOnChar c t := by
  induction p with
  | nil =>
    simp only [List.nil_append, splitOnChar]
    rcases h : splitOnChar c t with _ | ⟨r, rs⟩
    · exact absurd h (splitOnChar_ne_nil c t)
    · simp
  | cons x xs ihp =>
    have hx : ¬ x = c := fun h => hp (by simp [h])
    have hxs : c ∉ xs := fun h => hp (List.mem_cons_of_mem x h)
    simp only [List.cons_append, splitOnChar, List.append_eq]
    rw [ihp hxs]
    simp [hx]

theorem splitOnChar_joinWith (c : Char) (ps : List Str) (hne : ps ≠ [])
    (hnc : ∀ p ∈ ps, c ∉ p) : splitOnChar c (joinWith c ps) = ps := by
  induction ps with
  | nil => exact absurd rfl hne
  | cons p ps ih =>
    cases ps with
    | nil => exact splitOnChar_no_sep c p (hnc p (by simp))
    | cons q qs =>
      have hrest : splitOnChar c (joinWith c (q :: qs)) = q :: qs :=
        ih (by simp) (fun r hr => hnc r (List.mem_cons_of_mem p hr))
      simp only [joinWith]
      rw [splitOnChar_append_sep c p _ (hnc p (by simp)), hrest]

theorem length_splitOnChar (c : Char) (s : Str) :
    (splitOnChar c s).length = s.count c + 1 := by
  induction s with
  | nil => simp [splitOnChar]
  | cons x xs ih =>
    simp only [splitOnChar]
    rcases h : splitOnChar c xs with _ | ⟨r, rs⟩
    · exact absurd h (splitOnChar_ne_nil c xs)
    · rw [h] at ih
      by_cases hx : x = c
      · subst hx
        show (if x = x then [] :: r :: rs else (x :: r) :: rs).length
            = List.count x (x :: xs) + 1
        rw [if_pos rfl]
        simp only [List.length_cons, List.count_cons_self]
        simp only [List.length_cons] at ih
        omega
      · show (if x = c then [] :: r :: rs else (x :: r) :: rs).length
            = List.count c (x :: xs) + 1
        rw [if_neg hx]
        simp only [List.length_cons,
          List.count_cons_of_ne (fun h => hx h.symm)]
        simp only [List.length_cons] at ih
        omega

theorem count_joinWith (c d : Char) (hcd : c ≠ d) (ps : List Str) :
    (joinWith d ps).count c = (ps.map (fun p => p.count c)).sum := by
  induction ps with
  | nil => simp [joinWith]
  | cons p ps ih =>
    cases ps with
    | nil => simp [joinWith]
    | cons q qs =>
      simp only [joinWith] at ih ⊢
      rw [List.count_append, List.count_cons_of_ne hcd, ih]
      simp

theorem count_dropWhileZero (c : Char) (hc : c ≠ '0') (t : Str) :
    (t.dropWhile (· = '0')).count c = t.count c := by
  induction t with
  | nil => simp
  | cons x xs ih =>
    by_cases hx : x = '0'
    · subst hx
      rw [List.dropWhile_cons_of_pos (by simp), ih,
        List.count_cons_of_ne hc]
    · rw [List.dropWhile_cons_of_neg (by simp [hx])]

theorem count_stripGroup (c : Char) (hc : c ≠ '0') (s : Str) :
    (stripGroup s).count c = s.count c := by
  simp only [stripGroup, subLeadingZeros]
  by_cases h : s.dropWhile (· = '0') = []
  · rw [if_pos h]
    have := count_dropWhileZero c hc s
    rw [h] at this
    simp only [List.count_nil] at this
    rw [← this]
    simp [List.count_cons, hc]
  · rw [if_neg h]
    exact count_dropWhileZero c hc s

theorem dropWhileZero_idem (t : Str) :
    (t.dropWhile (· = '0')).dropWhile (· = '0') = t.dropWhile (· = '0') := by
  induction t with
  | nil => simp
  | cons x xs ih =>
    by_cases hx : x = '0'
    · subst hx
      rw [List.dropWhile_cons_of_pos (by simp)]
      exact ih
    · rw [List.dropWhile_cons_of_neg (by simp [hx]),
        List.dropWhile_cons_of_neg (by simp [hx])]

theorem stripGroup_idem (s : Str) : stripGroup (stripGroup s) = stripGroup s := by
  simp only [stripGroup, subLeadingZeros]
  by_cases h : s.dropWhile (· = '0') = []
  · rw [if_pos h]
    simp [List.dropWhile]
  · rw [if_neg h, dropWhileZero_idem s, if_neg h]

theorem not_mem_stripGroup (c : Char) (hc : c ≠ '0') (s : Str) (hs : c ∉ s) :
    c ∉ stripGroup s := by
  intro hmem
  have := count_stripGroup c hc s
  rw [List.count_eq_zero_of_not_mem hs] at this
  exact (List.count_eq_zero.mp this) hmem

theorem unexplode_ip_eq (s : Str) :
    unexplode_ip s =
      if (splitOnChar '.' s).length = 4 then
        joinWith '.' ((splitOnChar '.' s).map stripGroup)
      else if 1 < (splitOnChar ':' s).length then
        joinWith ':' ((splitOnChar ':' s).map stripGroup)
      else s := by
  simp only [unexplode_ip, foldl_append_eq_map, List.nil_append]

theorem map_stripGroup_of_map (l : List Str) :
    (l.map stripGroup).map stripGroup = l.map stripGroup := by
  rw [List.map_map]
  exact List.map_congr_left (fun p _ => stripGroup_idem p)

theorem unexplode_dot_case (s : Str) (h4 : (splitOnChar '.' s).length = 4) :
    unexplode_ip (unexplode_ip s) = unexplode_ip s := by
  rw [unexplode_ip_eq s, if_pos h4]
  have hnodot : ∀ q ∈ (splitOnChar '.' s).map stripGroup, '.' ∉ q := by
    intro q hq
    rcases List.mem_map.mp hq with ⟨p, hp, hpq⟩
    rw [← hpq]
    exact not_mem_stripGroup '.' (by decide) p (mem_splitOnChar_not_mem '.' s p hp)
  have hne : (splitOnChar '.' s).map stripGroup ≠ [] := by
    intro h
    rw [← List.length_eq_zero] at h
    simp [h4] at h
  have hsp : splitOnChar '.' (joinWith '.' ((splitOnChar '.' s).map stripGroup))
      = (splitOnChar '.' s).map stripGroup :=
    splitOnChar_joinWith '.' _ hne hnodot
  rw [unexplode_ip_eq, hsp]
  rw [if_pos (by simp [h4])]
  rw [map_stripGroup_of_map]

theorem unexplode_colon_case (s : Str) (h4 : ¬ (splitOnChar '.' s).length = 4)
    (hc : 1 < (splitOnChar ':' s).length) :
    unexplode_ip (unexplode_ip s) = unexplode_ip s := by
  rw [unexplode_ip_eq s, if_neg h4, if_pos hc]
  have hnocolon : ∀ q ∈ (splitOnChar ':' s).map stripGroup, ':' ∉ q := by
    intro q hq
    rcases List.mem_map.mp hq with ⟨p, hp, hpq⟩
    rw [← hpq]
    exact not_mem_stripGroup ':' (by decide) p (mem_splitOnChar_not_mem ':' s p hp)
  have hne : (splitOnChar ':' s).map stripGroup ≠ [] := by
    intro h
    rw [List.map_eq_nil_iff] at h
    exact splitOnChar_ne_nil ':' s h
  have hsp : splitOnChar ':' (joinWith ':' ((splitOnChar ':' s).map stripGroup))
      = (splitOnChar ':' s).map stripGroup :=
    splitOnChar_joinWith ':' _ hne hnocolon
  have hcount : (joinWith ':' ((splitOnChar ':' s).map stripGroup)).count '.'
      = s.count '.' := by
    rw [count_joinWith '.' ':' (by decide)]
    have hmaps : ((splitOnChar ':' s).map stripGroup).map (fun p => p.count '.')
        = (splitOnChar ':' s).map (fun p => p.count '.') := by
      rw [List.map_map]
      exact List.map_congr_left (fun p _ => count_stripGroup '.' (by decide) p)
    rw [hmaps, ← count_joinWith '.' ':' (by decide), joinWith_splitOnChar]
  have h4r : ¬ (splitOnChar '.' (joinWith ':' ((splitOnChar ':' s).map stripGroup))).length = 4 := by
    rw [length_splitOnChar, hcount]
    rw [length_splitOnChar] at h4
    exact h4
  rw [unexplode_ip_eq, if_neg h4r, hsp]
  rw [if_pos (by simpa using hc)]
  rw [map_stripGroup_of_map]

/-- C6: the address normaliser unexplode_ip is idempotent; this holds for
every input string, in particular for every valid IPv4 or IPv6 address
string. -/
theorem c6_unexplode_idempotent (s : Str) :
    unexplode_ip (unexplode_ip s) = unexplode_ip s := by
  by_cases h4 : (splitOnChar '.' s).length = 4
  · exact unexplode_dot_case s h4
  · by_cases hc : 1 < (splitOnChar ':' s).length
    · exact unexplode_colon_case s h4 hc
    · rw [unexplode_ip_eq s, if_neg h4, if_neg hc,
        unexplode_ip_eq s, if_neg h4, if_neg hc]

/-- C10: unexplode_ip is total over arbitrary strings and always returns
(never raises): a string with exactly 4 dot-separated components is rejoined
with dots after stripping leading zeros of every component, otherwise a
string with 2 or more colon-separated components is rejoined with colons the
same way, and any other string is returned unchanged. -/
theorem c10_unexplode_total_characterization (s : Str) :
    unexplode_ip s =
      if (splitOnChar '.' s).length = 4 then
        joinWith '.' ((splitOnChar '.' s).map stripGroup)
      else if 1 < (splitOnChar ':' s).length then
        joinWith ':' ((splitOnChar ':' s).map stripGroup)
      else s :=
  unexplode_ip_eq s

theorem one_ixp_empty_lan (env : Env) (px : Ixpfx)
    (h : getixlan_by_id env px.ixlan_id = []) :
    one_ixp_by_ixpfx env px = none := by
  unfold one_ixp_by_ixpfx
  rw [h]

/-- C9: when the matching prefix's exchange-lan lookup yields zero records,
or the first lan's exchange-point lookup yields zero records, resolution
returns None as a normal result (the second case by falling off the end of
one_ixp_by_ixpfx), not an error. -/
theorem c9_broken_chain_not_found (env : Env) (px : Ixpfx)
    (h : getixlan_by_id env px.ixlan_id = [] ∨
      ∃ lan rest, getixlan_by_id env px.ixlan_id = lan :: rest ∧
        getixp_by_id env lan.ix_id = []) :
    one_ixp_by_ixpfx env px = none := by
  unfold one_ixp_by_ixpfx
  rcases h with h | ⟨lan, rest, h1, h2⟩
  · rw [h]
  · rw [h1]
    show (match getixp_by_id env lan.ix_id with
      | [] => none
      | x :: _ => some x) = none
    rw [h2]

/-- Witness for C9: a directory with the prefix's lan present but no
exchange point for the lan's ix_id resolves to None. -/
theorem c9_witness :
    one_ixp_by_ixpfx (Env.mk [] [Ixlan.mk 10 7] []) (Ixpfx.mk 1 10 "x".data) = none :=
  c9_broken_chain_not_found (Env.mk [] [Ixlan.mk 10 7] []) (Ixpfx.mk 1 10 "x".data)
    (Or.inr ⟨Ixlan.mk 10 7, [], by decide, by decide⟩)

/-- C1 (code bug): an address whose coarse-key query returns one candidate
that is not a supernet of it still resolves to that candidate's exchange
point, because after a full loop the Python loop variable holds the last
candidate and the None-check at line 246 only fires for an empty candidate
list.  The claim (and the spec, and line 246's evident intent) require
not-found here. -/
theorem c1_nonmatching_candidate_returns_ixp :
    parseIPAddr "198.51.101.7".data = some (4, 3325256967)
    ∧ getixpfxlist_by_start
        (Env.mk [Ixpfx.mk 1 10 "198.51.100.0/24".data] [Ixlan.mk 10 7]
          [Ixp.mk 7 "TestIX".data]) "198.51".data
      = [Ixpfx.mk 1 10 "198.51.100.0/24".data]
    ∧ candidateMatches 4 3325256967 (Ixpfx.mk 1 10 "198.51.100.0/24".data) = false
    ∧ getixp_by_ipv4
        (Env.mk [Ixpfx.mk 1 10 "198.51.100.0/24".data] [Ixlan.mk 10 7]
          [Ixp.mk 7 "TestIX".data])
        "198.51.101.7".data
      = Except.ok (some (Ixp.mk 7 "TestIX".data)) := by decide

/-- C4 (code bug): a lone candidate whose prefix text fails to parse is
skipped by the try/except during scanning, but the fall-through of the
loop still leaves it in the loop variable, so it is handed to the
exchange-point resolution and produces a result instead of being dropped.
The claim says such a candidate is never returned as the match. -/
theorem c4_malformed_candidate_returned :
    parseNet "198.51.garbage".data = none
    ∧ getixp_by_ipv4
        (Env.mk [Ixpfx.mk 1 5 "198.51.garbage".data] [Ixlan.mk 5 7]
          [Ixp.mk 7 "IX2".data])
        "198.51.100.7".data
      = Except.ok (some (Ixp.mk 7 "IX2".data)) := by decide

theorem v6step_false (res : List Str) (p : Str) :
    v6step (false, res) p = (false, stripGroup p :: res) := by
  simp [v6step]

theorem v6step_true_zero (res : List Str) :
    v6step (true, res) ['0', '0', '0', '0'] = (true, res) := by
  simp [v6step]

theorem v6step_true_other (res : List Str) (p : Str)
    (hp : p ≠ ['0', '0', '0', '0']) :
    v6step (true, res) p = (false, stripGroup p :: res) := by
  simp [v6step, hp]

theorem v6walk_foldl_false (rl res : List Str) :
    rl.foldl v6step (false, res)
    = (false, (rl.map stripGroup).reverse ++ res) := by
  induction rl generalizing res with
  | nil => simp
  | cons p rl ih =>
    rw [List.foldl_cons, v6step_false, ih]
    simp

theorem v6walk_eq_spec_trim (parts : List Str) :
    v6walk parts = coarseKeyV6SpecTrim parts := by
  unfold v6walk coarseKeyV6SpecTrim
  have haux : ∀ rl : List Str,
      (rl.foldl v6step (true, [])).2
      = ((rl.dropWhile (· = ['0', '0', '0', '0'])).map stripGroup).reverse := by
    intro rl
    induction rl with
    | nil => simp
    | cons p rl ih =>
      by_cases hp : p = ['0', '0', '0', '0']
      · subst hp
        rw [List.foldl_cons, v6step_true_zero,
          List.dropWhile_cons_of_pos (by simp)]
        exact ih
      · rw [List.foldl_cons, v6step_true_other [] p hp, v6walk_foldl_false,
          List.dropWhile_cons_of_neg (by simp [hp])]
        simp
  rw [haux parts.reverse, List.map_reverse]

/-- C7: the IPv6 coarse key takes the first 6 groups of the fully expanded
form, drops trailing all-zero groups until a non-zero group is seen from
the back, and strips leading zeros from the survivors (the imperative walk
equals the spec's trim); in particular the address 2001:de8:6::714:1,
whose expansion is 2001:0de8:0006:0000:0000:0000:0714:0001 with first six
groups 2001:0de8:0006:0000:0000:0000, gets the coarse key "2001:de8:6". -/
theorem c7_v6_coarse_key :
    (∀ parts : List Str, v6walk parts = coarseKeyV6SpecTrim parts)
    ∧ exploded 6 42540770214241647096509877216930430977
      = "2001:0de8:0006:0000:0000:0000:0714:0001".data
    ∧ parseIPAddr "2001:de8:6::714:1".data
      = some (6, 42540770214241647096509877216930430977)
    ∧ coarseKeyV6 "2001:de8:6::714:1".data = some "2001:de8:6".data :=
  ⟨v6walk_eq_spec_trim, by decide, by decide, by decide⟩

theorem dictKeys_foldl_mem (l : List Netixlan) :
    ∀ (ks : List Nat) (k : Nat),
      (k ∈ l.foldl
        (fun ks n => if n.ixlan_id ∈ ks then ks else ks ++ [n.ixlan_id]) ks)
      ↔ k ∈ ks ∨ k ∈ l.map (fun n => n.ixlan_id) := by
  induction l with
  | nil => simp
  | cons n l ih =>
    intro ks k
    simp only [List.foldl_cons, List.map_cons, List.mem_cons]
    by_cases h : n.ixlan_id ∈ ks
    · rw [if_pos h, ih]
      constructor
      · rintro (hk | hk)
        · exact Or.inl hk
        · exact Or.inr (Or.inr hk)
      · rintro (hk | hk | hk)
        · exact Or.inl hk
        · subst hk
          exact Or.inl h
        · exact Or.inr hk
    · rw [if_neg h, ih]
      simp only [List.mem_append, List.mem_singleton]
      tauto

theorem dictKeys_foldl_nodup (l : List Netixlan) :
    ∀ ks : List Nat, ks.Nodup →
      (l.foldl
        (fun ks n => if n.ixlan_id ∈ ks then ks else ks ++ [n.ixlan_id]) ks).Nodup := by
  induction l with
  | nil => intro ks h; simpa using h
  | cons n l ih =>
    intro ks h
    simp only [List.foldl_cons]
    by_cases hm : n.ixlan_id ∈ ks
    · rw [if_pos hm]
      exact ih ks h
    · rw [if_neg hm]
      refine ih _ ?_
      have : (n.ixlan_id :: ks).Nodup := List.nodup_cons.mpr ⟨hm, h⟩
      exact ((List.perm_append_singleton n.ixlan_id ks).nodup_iff).mpr this

theorem dictKeys_mem (l : List Netixlan) (k : Nat) :
    k ∈ dictKeys l ↔ k ∈ l.map (fun n => n.ixlan_id) := by
  unfold dictKeys
  rw [dictKeys_foldl_mem]
  simp

theorem dictKeys_nodup (l : List Netixlan) : (dictKeys l).Nodup :=
  dictKeys_foldl_nodup l [] List.nodup_nil

/-- C5: the number of rows emitted by ixlan_intersect equals the number of
exchange-lan identifiers occurring in both input collections, independent
of how many attachments each side has per identifier; identifiers present
on only one side contribute no row. -/
theorem c5_intersect_row_count (a b : List Netixlan) :
    (ixlan_intersect a b).length
      = ((a.map (fun n => n.ixlan_id)).toFinset
          ∩ (b.map (fun n => n.ixlan_id)).toFinset).card := by
  unfold ixlan_intersect
  rw [List.length_map]
  have hnodup : ((dictKeys a).filter (fun k => k ∈ dictKeys b)).Nodup :=
    (dictKeys_nodup a).filter _
  rw [← List.toFinset_card_of_nodup hnodup]
  congr 1
  ext k
  simp only [List.mem_toFinset, List.mem_filter, Finset.mem_inter,
    dictKeys_mem, decide_eq_true_eq]

theorem optionMapM_mem {α β : Type} (f : α → Option β) :
    ∀ (l : List α) (ys : List β), l.mapM f = some ys →
      ∀ x ∈ l, ∃ y, f x = some y := by
  intro l
  induction l with
  | nil => intro ys _ x hx; cases hx
  | cons a l ih =>
    intro ys hm x hx
    rw [List.mapM_cons] at hm
    cases hfa : f a with
    | none => rw [hfa] at hm; cases hm
    | some y =>
      rw [hfa] at hm
      cases hml : l.mapM f with
      | none => rw [hml] at hm; cases hm
      | some ys2 =>
        rcases List.mem_cons.mp hx with hx | hx
        · exact ⟨y, hx ▸ hfa⟩
        · exact ih ys2 hml x hx

theorem parseHextet_inv (p : Str) (y : Nat) (h : parseHextet p = some y) :
    p ≠ [] ∧ p.all isHexDigitChar = true ∧ p.length ≤ 4 := by
  unfold parseHextet at h
  split at h
  · rename_i hc
    exact ⟨hc.1, hc.2.1, hc.2.2⟩
  · cases h

theorem parseOctet_inv (o : Str) (w : Nat) (h : parseOctet o = some w) :
    o ≠ [] ∧ o.all (·.isDigit) = true ∧ o.length ≤ 3 ∧
      (o.length ≤ 1 ∨ o.headD 'x' ≠ '0') ∧ decVal o ≤ 255 ∧ w = decVal o := by
  unfold parseOctet at h
  split at h
  · rename_i hc
    exact ⟨hc.1, hc.2.1, hc.2.2.1, hc.2.2.2.1, hc.2.2.2.2, (Option.some.inj h).symm⟩
  · cases h

theorem parseV4Addr_inv (s : Str) (n : Nat) (h : parseV4Addr s = some n) :
    ∃ a b c d va vb vc vd, splitOnChar '.' s = [a, b, c, d]
      ∧ parseOctet a = some va ∧ parseOctet b = some vb
      ∧ parseOctet c = some vc ∧ parseOctet d = some vd
      ∧ n = ((va * 256 + vb) * 256 + vc) * 256 + vd := by
  unfold parseV4Addr at h
  split at h
  · rename_i a b c d hsplit
    simp only [Option.bind_eq_bind, Option.bind_eq_some, Option.pure_def,
      Option.some.injEq] at h
    obtain ⟨va, hva, vb, hvb, vc, hvc, vd, hvd, hn⟩ := h
    exact ⟨a, b, c, d, va, vb, vc, vd, hsplit, hva, hvb, hvc, hvd, hn.symm⟩
  · cases h

theorem mem_joinWith (c d : Char) :
    ∀ ps : List Str, c ∈ joinWith d ps → c = d ∨ ∃ p ∈ ps, c ∈ p := by
  intro ps
  induction ps with
  | nil => intro h; cases h
  | cons p ps ih =>
    cases ps with
    | nil =>
      intro h
      exact Or.inr ⟨p, by simp, by simpa [joinWith] using h⟩
    | cons q qs =>
      intro h
      simp only [joinWith] at h
      rcases List.mem_append.mp h with h | h
      · exact Or.inr ⟨p, by simp, h⟩
      · rcases List.mem_cons.mp h with h | h
        · exact Or.inl h
        · rcases ih h with h | ⟨r, hr, hcr⟩
          · exact Or.inl h
          · exact Or.inr ⟨r, List.mem_cons_of_mem p hr, hcr⟩

theorem parseV4Addr_chars (s : Str) (n : Nat) (h : parseV4Addr s = some n) :
    ∀ c ∈ s, c.isDigit = true ∨ c = '.' := by
  obtain ⟨a, b, cc, d, va, vb, vc, vd, hs, ha, hb, hc, hd, _⟩ := parseV4Addr_inv s n h
  intro c hcs
  have hjoin : joinWith '.' [a, b, cc, d] = s := by
    rw [← hs]; exact joinWith_splitOnChar '.' s
  rw [← hjoin] at hcs
  rcases mem_joinWith c '.' [a, b, cc, d] hcs with h1 | ⟨p, hp, hcp⟩
  · exact Or.inr h1
  · left
    have hall : p.all (·.isDigit) = true := by
      rcases List.mem_cons.mp hp with h2 | hp
      · exact h2 ▸ (parseOctet_inv a va ha).2.1
      · rcases List.mem_cons.mp hp with h2 | hp
        · exact h2 ▸ (parseOctet_inv b vb hb).2.1
        · rcases List.mem_cons.mp hp with h2 | hp
          · exact h2 ▸ (parseOctet_inv cc vc hc).2.1
          · rcases List.mem_cons.mp hp with h2 | hp
            · exact h2 ▸ (parseOctet_inv d vd hd).2.1
            · cases hp
    exact List.all_eq_true.mp hall c hcp

theorem headD_getElem {α : Type} (l : List α) (d : α) (h : 0 < l.length) :
    l.headD d = l[0] := by
  cases l with
  | nil => simp at h
  | cons x xs => rfl

theorem getLastD_getElem {α : Type} (l : List α) (d : α) (h : 0 < l.length) :
    l.getLastD d = l[l.length - 1] := by
  rw [List.getLastD_eq_getLast?]
  have hne : l ≠ [] := by
    intro he
    rw [he] at h
    simp at h
  rw [List.getLast?_eq_getLast l hne]
  simp only [Option.getD_some]
  exact List.getLast_eq_getElem l hne

theorem middleEmptyIdxs_mem (parts : List Str) (j : Nat) :
    j ∈ middleEmptyIdxs parts
      ↔ 1 ≤ j ∧ j + 1 < parts.length ∧ parts.getD j ['x'] = [] := by
  unfold middleEmptyIdxs
  rw [List.mem_filter]
  simp only [List.mem_range, decide_eq_true_eq]
  constructor
  · rintro ⟨_, h⟩
    exact h
  · rintro ⟨h1, h2, h3⟩
    exact ⟨by omega, h1, h2, h3⟩

theorem parseV6Addr_post_cov (s : Str) (v : Nat) (h : parseV6Addr s = some v) :
    3 ≤ (splitOnChar ':' s).length ∧
    ∃ parts, embedLast (splitOnChar ':' s) = some parts ∧
      ∀ part ∈ parts, part = [] ∨ part.all isHexDigitChar = true := by
  simp only [parseV6Addr] at h
  split at h
  · cases h
  · rename_i h3
    refine ⟨by omega, ?_⟩
    split at h
    · cases h
    · rename_i parts he
      refine ⟨parts, he, ?_⟩
      split at h
      · cases h
      · rename_i h9
        split at h
        · rename_i hmid
          split at h
          · rename_i hc
            split at h
            · rename_i vs hm
              intro part hpart
              right
              obtain ⟨y, hy⟩ := optionMapM_mem parseHextet parts vs hm part hpart
              exact (parseHextet_inv part y hy).2.1
            · cases h
          · cases h
        · rename_i i hmid
          split at h
          · cases h
          · rename_i hg1
            split at h
            · cases h
            · rename_i hg2
              split at h
              · cases h
              · rename_i hg3
                split at h
                · rename_i hv lv hmh hml
                  have hifacts := (middleEmptyIdxs_mem parts i).mp
                    (by rw [hmid]; exact List.mem_cons_self i [])
                  obtain ⟨hi1, hi2, hiempty⟩ := hifacts
                  intro part hpart
                  obtain ⟨j, hj, hpj⟩ := List.mem_iff_getElem.mp hpart
                  by_cases hjhi : j < partsHi parts i
                  · right
                    have hjlen : j < (parts.take (partsHi parts i)).length := by
                      rw [List.length_take]; omega
                    have hmem : part ∈ parts.take (partsHi parts i) := by
                      rw [← hpj, ← List.getElem_take (L := parts) (h := hjlen)]
                      exact List.getElem_mem hjlen
                    obtain ⟨y, hy⟩ := optionMapM_mem parseHextet _ hv hmh part hmem
                    exact (parseHextet_inv part y hy).2.1
                  · by_cases hjlo : parts.length - partsLo parts i ≤ j
                    · right
                      have hjlen : j - (parts.length - partsLo parts i) <
                          (parts.drop (parts.length - partsLo parts i)).length := by
                        rw [List.length_drop]
                        have : partsLo parts i ≤ parts.length := by
                          unfold partsLo
                          split
                          · omega
                          · omega
                        omega
                      have hgd : (parts.drop (parts.length - partsLo parts i))[j -
                          (parts.length - partsLo parts i)] = parts[j] := by
                        rw [List.getElem_drop (L := parts) (h := hjlen)]
                        congr 1
                        omega
                      have hmem : part ∈ parts.drop (parts.length - partsLo parts i) := by
                        rw [← hpj, ← hgd]
                        exact List.getElem_mem hjlen
                      obtain ⟨y, hy⟩ := optionMapM_mem parseHextet _ lv hml part hmem
                      exact (parseHextet_inv part y hy).2.1
                    · left
                      rw [← hpj]
                      have hgetD : parts.getD j ['x'] = parts[j] :=
                        List.getD_eq_getElem parts ['x'] hj
                      by_cases hhead : parts.headD ['x'] = []
                      · have hieq : i = 1 := by
                          by_contra hne
                          exact hg1 ⟨hhead, hne⟩
                        by_cases hlast : parts.getLastD ['x'] = []
                        · have hlen : i + 2 = parts.length := by
                            by_contra hne
                            exact hg2 ⟨hlast, hne⟩
                          have hcases : j = 0 ∨ j = i ∨ j = parts.length - 1 := by
                            unfold partsHi at hjhi
                            unfold partsLo at hjlo
                            rw [if_pos hhead] at hjhi
                            rw [if_pos hlast] at hjlo
                            omega
                          rcases hcases with hj0 | hji | hjl
                          · subst hj0
                            rw [← headD_getElem parts ['x'] (by omega)]
                            exact hhead
                          · subst hji
                            rw [← hgetD]
                            exact hiempty
                          · subst hjl
                            rw [← getLastD_getElem parts ['x'] (by omega)]
                            exact hlast
                        · have hcases : j = 0 ∨ j = i := by
                            unfold partsHi at hjhi
                            unfold partsLo at hjlo
                            rw [if_pos hhead] at hjhi
                            rw [if_neg hlast] at hjlo
                            omega
                          rcases hcases with hj0 | hji
                          · subst hj0
                            rw [← headD_getElem parts ['x'] (by omega)]
                            exact hhead
                          · subst hji
                            rw [← hgetD]
                            exact hiempty
                      · by_cases hlast : parts.getLastD ['x'] = []
                        · have hlen : i + 2 = parts.length := by
                            by_contra hne
                            exact hg2 ⟨hlast, hne⟩
                          have hcases : j = i ∨ j = parts.length - 1 := by
                            unfold partsHi at hjhi
                            unfold partsLo at hjlo
                            rw [if_neg hhead] at hjhi
                            rw [if_pos hlast] at hjlo
                            omega
                          rcases hcases with hji | hjl
                          · subst hji
                            rw [← hgetD]
                            exact hiempty
                          · subst hjl
                            rw [← getLastD_getElem parts ['x'] (by omega)]
                            exact hlast
                        · have hcases : j = i := by
                            unfold partsHi at hjhi
                            unfold partsLo at hjlo
                            rw [if_neg hhead] at hjhi
                            rw [if_neg hlast] at hjlo
                            omega
                          subst hcases
                          rw [← hgetD]
                          exact hiempty
                · cases h
        · cases h

theorem parseV6Addr_inv (s : Str) (v : Nat) (h : parseV6Addr s = some v) :
    3 ≤ (splitOnChar ':' s).length ∧
    ∀ j, (hj : j < (splitOnChar ':' s).length) →
      (splitOnChar ':' s)[j] = []
      ∨ ((splitOnChar ':' s)[j]).all isHexDigitChar = true
      ∨ (j = (splitOnChar ':' s).length - 1
          ∧ ∃ w, parseV4Addr ((splitOnChar ':' s)[j]) = some w) := by
  obtain ⟨h3, parts, he, hcov⟩ := parseV6Addr_post_cov s v h
  refine ⟨h3, ?_⟩
  intro j hj
  unfold embedLast at he
  set parts0 := splitOnChar ':' s with hp0
  by_cases hdot : '.' ∈ parts0.getLastD []
  · rw [if_pos hdot] at he
    cases hv4 : parseV4Addr (parts0.getLastD []) with
    | none => rw [hv4] at he; cases he
    | some w =>
      rw [hv4] at he
      have hparts : parts = parts0.dropLast ++
          [Nat.toDigits 16 (w / 65536 % 65536), Nat.toDigits 16 (w % 65536)] :=
        (Option.some.inj he).symm
      by_cases hjl : j = parts0.length - 1
      · right; right
        subst hjl
        refine ⟨rfl, w, ?_⟩
        rw [← getLastD_getElem parts0 [] (by omega)]
        exact hv4
      · have hjlt : j < parts0.dropLast.length := by
          rw [List.length_dropLast]; omega
        have hmem : parts0[j] ∈ parts := by
          rw [hparts]
          refine List.mem_append.mpr (Or.inl ?_)
          rw [← List.getElem_dropLast parts0 j hjlt]
          exact List.getElem_mem hjlt
        rcases hcov _ hmem with hc | hc
        · exact Or.inl hc
        · exact Or.inr (Or.inl hc)
  · rw [if_neg hdot] at he
    have hparts : parts = parts0 := (Option.some.inj he).symm
    subst hparts
    rcases hcov _ (List.getElem_mem hj) with hc | hc
    · exact Or.inl hc
    · exact Or.inr (Or.inl hc)

theorem splitOnChar_headD (c : Char) (s : Str) :
    (splitOnChar c s).headD [] = s.takeWhile (fun x => ¬ x = c) := by
  induction s with
  | nil => rfl
  | cons x xs ih =>
    simp only [splitOnChar]
    cases h : splitOnChar c xs with
    | nil => exact absurd h (splitOnChar_ne_nil c xs)
    | cons r rs =>
      rw [h] at ih
      simp only [List.headD_cons] at ih
      by_cases hx : x = c
      · subst hx
        show (if x = x then [] :: r :: rs else (x :: r) :: rs).headD [] = _
        rw [if_pos rfl]
        simp [List.takeWhile_cons]
      · show (if x = c then [] :: r :: rs else (x :: r) :: rs).headD [] = _
        rw [if_neg hx]
        simp [List.takeWhile_cons, hx, ih]

theorem takeWhile_append_all (p : Char → Bool) (xs ys : Str)
    (hxs : ∀ x ∈ xs, p x = true) :
    (xs ++ ys).takeWhile p = xs ++ ys.takeWhile p := by
  induction xs with
  | nil => simp
  | cons x xs ih =>
    rw [List.cons_append, List.takeWhile_cons_of_pos (hxs x (by simp)),
      ih (fun y hy => hxs y (List.mem_cons_of_mem x hy)), List.cons_append]

theorem parseV6Addr_digit_dot (a rest : Str) (ha : a ≠ [])
    (had : a.all (·.isDigit) = true) :
    parseV6Addr (a ++ '.' :: rest) = none := by
  cases hp : parseV6Addr (a ++ '.' :: rest) with
  | none => rfl
  | some v =>
    exfalso
    obtain ⟨h3, hcov⟩ := parseV6Addr_inv _ v hp
    have h0 : 0 < (splitOnChar ':' (a ++ '.' :: rest)).length := by omega
    have hdigit_ne : ∀ x ∈ a, (fun x => decide ¬ x = ':') x = true := by
      intro x hx
      have hd : x.isDigit = true := List.all_eq_true.mp had x hx
      simp only [decide_eq_true_eq]
      intro heq
      rw [heq] at hd
      exact absurd hd (by decide)
    have hhead : (splitOnChar ':' (a ++ '.' :: rest))[0]
        = a ++ '.' :: (rest.takeWhile (fun x => ¬ x = ':')) := by
      rw [← headD_getElem _ [] h0, splitOnChar_headD,
        takeWhile_append_all _ a ('.' :: rest) hdigit_ne,
        List.takeWhile_cons_of_pos (by decide)]
    rcases hcov 0 h0 with hc | hc | hc
    · rw [hhead] at hc
      rcases List.append_eq_nil.mp hc with ⟨hc1, _⟩
      exact ha hc1
    · rw [hhead] at hc
      have hdm : '.' ∈ a ++ '.' :: (rest.takeWhile (fun x => ¬ x = ':')) := by
        simp
      have := List.all_eq_true.mp hc '.' hdm
      exact absurd this (by decide)
    · obtain ⟨h0l, _⟩ := hc
      omega

theorem parseV6Addr_no_slash (s : Str) (v : Nat) (h : parseV6Addr s = some v) :
    '/' ∉ s := by
  intro hmem
  obtain ⟨h3, hcov⟩ := parseV6Addr_inv s v h
  rw [← joinWith_splitOnChar ':' s] at hmem
  rcases mem_joinWith '/' ':' _ hmem with heq | ⟨p, hp, hmp⟩
  · exact absurd heq (by decide)
  · obtain ⟨j, hj, hpj⟩ := List.mem_iff_getElem.mp hp
    rw [← hpj] at hmp
    rcases hcov j hj with hc | hc | hc
    · rw [hc] at hmp
      cases hmp
    · have := List.all_eq_true.mp hc '/' hmp
      exact absurd this (by decide)
    · obtain ⟨_, w, hw⟩ := hc
      rcases parseV4Addr_chars _ w hw '/' hmp with hd | hd
      · exact absurd hd (by decide)
      · exact absurd hd (by decide)

theorem scanLoop_cons (h : IPNet) (q : Ixpfx) (qs : List Ixpfx) :
    scanLoop h (q :: qs) =
      match parseNet q.prefixText with
      | none => (match qs with
        | [] => Except.ok (some q)
        | q2 :: qs2 => scanLoop h (q2 :: qs2))
      | some net =>
        if net.version ≠ h.version then Except.error PyErr.typeError
        else if subnetOfB h net then Except.ok (some q)
        else (match qs with
          | [] => Except.ok (some q)
          | q2 :: qs2 => scanLoop h (q2 :: qs2)) := by
  conv_lhs => unfold scanLoop

theorem scanLoop_cons_match (h : IPNet) (q : Ixpfx) (qs : List Ixpfx)
    (net : IPNet) (hp : parseNet q.prefixText = some net)
    (hv : net.version = h.version) (hs : subnetOfB h net = true) :
    scanLoop h (q :: qs) = Except.ok (some q) := by
  rw [scanLoop_cons, hp]
  simp [hv, hs]

theorem scanLoop_cons_skip (h : IPNet) (q : Ixpfx) (rest : List Ixpfx)
    (hne : rest ≠ [])
    (hskip : parseNet q.prefixText = none
      ∨ ∃ net, parseNet q.prefixText = some net ∧ net.version = h.version
          ∧ subnetOfB h net = false) :
    scanLoop h (q :: rest) = scanLoop h rest := by
  cases rest with
  | nil => exact absurd rfl hne
  | cons q2 qs2 =>
    rcases hskip with hp | ⟨net, hp, hv, hs⟩
    · rw [scanLoop_cons, hp]
    · rw [scanLoop_cons, hp]
      simp [hv, hs]

theorem scanLoop_first_match (h : IPNet) (l1 l2 : List Ixpfx) (q : Ixpfx)
    (hq : ∃ net, parseNet q.prefixText = some net ∧ net.version = h.version
        ∧ subnetOfB h net = true)
    (hbefore : ∀ r ∈ l1, parseNet r.prefixText = none
      ∨ ∃ net, parseNet r.prefixText = some net ∧ net.version = h.version
          ∧ subnetOfB h net = false) :
    scanLoop h (l1 ++ q :: l2) = Except.ok (some q) := by
  induction l1 with
  | nil =>
    obtain ⟨net, hp, hv, hs⟩ := hq
    simpa using scanLoop_cons_match h q l2 net hp hv hs
  | cons r l1 ih =>
    rw [List.cons_append,
      scanLoop_cons_skip h r (l1 ++ q :: l2) (by simp) (hbefore r (by simp))]
    exact ih (fun r2 hr2 => hbefore r2 (List.mem_cons_of_mem r hr2))

theorem candidateMatches_eq_true_iff (ver n : Nat) (q : Ixpfx) :
    candidateMatches ver n q = true
      ↔ ∃ net, parseNet q.prefixText = some net ∧ net.version = ver
          ∧ subnetOfB (hostNet ver n) net = true := by
  unfold candidateMatches
  cases hp : parseNet q.prefixText with
  | none => simp
  | some net => simp [Bool.and_eq_true, decide_eq_true_eq]

theorem parseV4Net_version (t : Str) (net : IPNet)
    (h : parseV4Net t = some net) : net.version = 4 := by
  unfold parseV4Net at h
  split at h
  · cases hp : parseV4Addr _ with
    | none => rw [hp] at h; cases h
    | some w =>
      rw [hp] at h
      simp only [Option.map_some'] at h
      rw [← Option.some.inj h]
  · simp only [Option.bind_eq_bind, Option.bind_eq_some] at h
    obtain ⟨w, hw, pl, hpl, hif⟩ := h
    split at hif
    · rw [← Option.some.inj hif]
    · cases hif
  · cases h

theorem parseV6Net_version (t : Str) (net : IPNet)
    (h : parseV6Net t = some net) : net.version = 6 := by
  unfold parseV6Net at h
  split at h
  · cases hp : parseV6Addr _ with
    | none => rw [hp] at h; cases h
    | some w =>
      rw [hp] at h
      simp only [Option.map_some'] at h
      rw [← Option.some.inj h]
  · simp only [Option.bind_eq_bind, Option.bind_eq_some] at h
    obtain ⟨w, hw, pl, hpl, hif⟩ := h
    split at hif
    · rw [← Option.some.inj hif]
    · cases hif
  · cases h

theorem parseV6Net_addr (t : Str) (net : IPNet) (h : parseV6Net t = some net) :
    ∃ v, parseV6Addr ((splitOnChar '/' t).headD []) = some v := by
  unfold parseV6Net at h
  split at h
  · rename_i a hsplit
    rw [hsplit]
    simp only [List.headD_cons]
    cases hp : parseV6Addr a with
    | none => rw [hp] at h; cases h
    | some w => exact ⟨w, rfl⟩
  · rename_i a p hsplit
    rw [hsplit]
    simp only [List.headD_cons]
    simp only [Option.bind_eq_bind, Option.bind_eq_some] at h
    obtain ⟨w, hw, _⟩ := h
    exact ⟨w, hw⟩
  · cases h

theorem parseNet_startswith_digit_dot (o1 u : Str) (net : IPNet)
    (ho1 : o1 ≠ []) (hd : o1.all (·.isDigit) = true)
    (h : parseNet (o1 ++ '.' :: u) = some net) : net.version = 4 := by
  unfold parseNet at h
  cases h4 : parseV4Net (o1 ++ '.' :: u) with
  | some net2 =>
    rw [h4] at h
    rw [← Option.some.inj h]
    exact parseV4Net_version _ _ h4
  | none =>
    rw [h4] at h
    obtain ⟨v, hv⟩ := parseV6Net_addr _ _ h
    rw [splitOnChar_headD] at hv
    have hno : ∀ x ∈ o1, (fun x => decide ¬ x = '/') x = true := by
      intro x hx
      have hdx : x.isDigit = true := List.all_eq_true.mp hd x hx
      simp only [decide_eq_true_eq]
      intro heq
      rw [heq] at hdx
      exact absurd hdx (by decide)
    rw [takeWhile_append_all _ o1 ('.' :: u) hno,
      List.takeWhile_cons_of_pos (by decide)] at hv
    rw [parseV6Addr_digit_dot o1 _ ho1 hd] at hv
    cases hv

theorem parseNet_slash32 (t : Str) (n : Nat) (h : parseV4Addr t = some n) :
    parseNet (t ++ ['/', '3', '2']) = some (hostNet 4 n) := by
  have hns : '/' ∉ t := by
    intro hm
    rcases parseV4Addr_chars t n h '/' hm with hd | hd
    · exact absurd hd (by decide)
    · exact absurd hd (by decide)
  have hsplit : splitOnChar '/' (t ++ '/' :: ['3', '2']) = [t, ['3', '2']] := by
    rw [splitOnChar_append_sep '/' t ['3', '2'] hns]
    rfl
  have h4 : parseV4Net (t ++ '/' :: ['3', '2']) = some (hostNet 4 n) := by
    unfold parseV4Net
    rw [hsplit]
    show (do
      let v ← parseV4Addr t
      let pl ← parsePlen 32 ['3', '2']
      if v % 2 ^ (32 - pl) = 0 then some (IPNet.mk 4 v pl) else none)
      = some (hostNet 4 n)
    rw [h]
    have hpl : parsePlen 32 ['3', '2'] = some 32 := by decide
    simp only [Option.some_bind, hpl]
    simp [Nat.mod_one]
    rfl
  unfold parseNet
  rw [h4]

theorem getixp_by_ipv4_eq (env : Env) (v4 : Str) (v4net : IPNet) (key : Str)
    (h1 : parseNet (v4 ++ ['/', '3', '2']) = some v4net)
    (h2 : v4CoarseKey v4 = some key) :
    getixp_by_ipv4 env v4
      = (match scanLoop v4net (getixpfxlist_by_start env key) with
        | Except.error e => Except.error e
        | Except.ok none => Except.ok none
        | Except.ok (some q) => Except.ok (getixp_by_ixpfx env q)) := by
  unfold getixp_by_ipv4
  rw [h1, h2]

/-- C2: for a v4 address and the ordered candidate list produced by the
query facade for its coarse key, when some candidate parses to a supernet
of the address, the resolver returns the exchange point reached from the
first such candidate in list order -- even when a later candidate is a
longer (more specific) match, since nothing below depends on the prefix
lengths of l2. -/
theorem c2_first_supernet_match_wins (env : Env) (v4 : Str) (n : Nat)
    (key : Str) (l1 l2 : List Ixpfx) (q : Ixpfx)
    (hparse : parseV4Addr v4 = some n)
    (hkey : v4CoarseKey v4 = some key)
    (hdata : getixpfxlist_by_start env key = l1 ++ q :: l2)
    (hq : candidateMatches 4 n q = true)
    (hbefore : ∀ r ∈ l1, candidateMatches 4 n r = false) :
    getixp_by_ipv4 env v4 = Except.ok (getixp_by_ixpfx env q) := by
  obtain ⟨o1, o2, o3, o4, va, vb, vc, vd, hsplit, ho1, ho2, ho3, ho4, hn⟩ :=
    parseV4Addr_inv v4 n hparse
  have hkey2 : key = o1 ++ '.' :: o2 := by
    unfold v4CoarseKey at hkey
    rw [hsplit] at hkey
    exact (Option.some.inj hkey).symm
  have ho1ne : o1 ≠ [] := (parseOctet_inv o1 va ho1).1
  have ho1d : o1.all (·.isDigit) = true := (parseOctet_inv o1 va ho1).2.1
  have hbefore2 : ∀ r ∈ l1, parseNet r.prefixText = none
      ∨ ∃ net, parseNet r.prefixText = some net
          ∧ net.version = (hostNet 4 n).version
          ∧ subnetOfB (hostNet 4 n) net = false := by
    intro r hr
    have hrmem : r ∈ getixpfxlist_by_start env key := by
      rw [hdata]
      exact List.mem_append.mpr (Or.inl hr)
    have hpref : List.isPrefixOf key r.prefixText = true := by
      unfold getixpfxlist_by_start at hrmem
      exact (List.mem_filter.mp hrmem).2
    obtain ⟨u, hu⟩ := List.isPrefixOf_iff_prefix.mp hpref
    cases hpn : parseNet r.prefixText with
    | none => exact Or.inl rfl
    | some net =>
      right
      have hshape : r.prefixText = o1 ++ '.' :: (o2 ++ u) := by
        rw [← hu, hkey2]
        simp
      have hv4 : net.version = 4 := by
        rw [hshape] at hpn
        exact parseNet_startswith_digit_dot o1 (o2 ++ u) net ho1ne ho1d hpn
      refine ⟨net, rfl, by rw [hv4]; rfl, ?_⟩
      have hm := hbefore r hr
      unfold candidateMatches at hm
      rw [hpn] at hm
      change (decide (net.version = 4) && subnetOfB (hostNet 4 n) net) = false at hm
      rw [hv4] at hm
      have hd4 : (decide ((4 : Nat) = 4)) = true := by decide
      rw [hd4, Bool.true_and] at hm
      exact hm
  have hq2 := (candidateMatches_eq_true_iff 4 n q).mp hq
  have hq3 : ∃ net, parseNet q.prefixText = some net
      ∧ net.version = (hostNet 4 n).version
      ∧ subnetOfB (hostNet 4 n) net = true := by
    obtain ⟨net, h1, h2, h3⟩ := hq2
    exact ⟨net, h1, by rw [h2]; rfl, h3⟩
  rw [getixp_by_ipv4_eq env v4 (hostNet 4 n) key (parseNet_slash32 v4 n hparse)
    hkey, hdata, scanLoop_first_match (hostNet 4 n) l1 l2 q hq3 hbefore2]

/-- Witness for C2: with an unparseable candidate first, then a /16 and a
more specific /24 both containing the address, the resolver returns the
/16's exchange point (first match in facade order, not the most
specific). -/
theorem c2_witness :
    getixp_by_ipv4
      (Env.mk
        [Ixpfx.mk 0 9 "198.51.bad".data, Ixpfx.mk 1 11 "198.51.0.0/16".data,
          Ixpfx.mk 2 12 "198.51.100.0/24".data]
        [Ixlan.mk 11 70, Ixlan.mk 12 71]
        [Ixp.mk 70 "Sixteen".data, Ixp.mk 71 "TwentyFour".data])
      "198.51.100.7".data
      = Except.ok (some (Ixp.mk 70 "Sixteen".data)) :=
  (c2_first_supernet_match_wins
    (Env.mk
      [Ixpfx.mk 0 9 "198.51.bad".data, Ixpfx.mk 1 11 "198.51.0.0/16".data,
        Ixpfx.mk 2 12 "198.51.100.0/24".data]
      [Ixlan.mk 11 70, Ixlan.mk 12 71]
      [Ixp.mk 70 "Sixteen".data, Ixp.mk 71 "TwentyFour".data])
    "198.51.100.7".data 3325256711 "198.51".data
    [Ixpfx.mk 0 9 "198.51.bad".data]
    [Ixpfx.mk 2 12 "198.51.100.0/24".data]
    (Ixpfx.mk 1 11 "198.51.0.0/16".data)
    (by decide) (by decide) (by decide) (by decide) (by decide)).trans
    (by decide)

theorem scanLoop_unique (h : IPNet) (p : Ixpfx) :
    ∀ l : List Ixpfx,
      (∀ r ∈ l, ∀ net, parseNet r.prefixText = some net → net.version = h.version) →
      (∃ m ∈ l, ∃ net, parseNet m.prefixText = some net ∧ subnetOfB h net = true) →
      (∀ m ∈ l, ∀ net, parseNet m.prefixText = some net →
        subnetOfB h net = true → m = p) →
      scanLoop h l = Except.ok (some p) := by
  intro l
  induction l with
  | nil =>
    intro _ hex _
    obtain ⟨m, hm, _⟩ := hex
    cases hm
  | cons r l ih =>
    intro hver hex huniq
    by_cases hrm : ∃ net, parseNet r.prefixText = some net ∧ subnetOfB h net = true
    · obtain ⟨net, hpn, hsb⟩ := hrm
      have hrp : r = p := huniq r (List.mem_cons_self r l) net hpn hsb
      rw [scanLoop_cons_match h r l net hpn
        (hver r (List.mem_cons_self r l) net hpn) hsb, hrp]
    · have hex' : ∃ m ∈ l, ∃ net, parseNet m.prefixText = some net
          ∧ subnetOfB h net = true := by
        obtain ⟨m, hm, net, h1, h2⟩ := hex
        rcases List.mem_cons.mp hm with hm | hm
        · exact absurd ⟨net, hm ▸ h1, h2⟩ hrm
        · exact ⟨m, hm, net, h1, h2⟩
      have hlne : l ≠ [] := by
        obtain ⟨m, hm, _⟩ := hex'
        intro he
        rw [he] at hm
        cases hm
      have hskip : parseNet r.prefixText = none
          ∨ ∃ net, parseNet r.prefixText = some net ∧ net.version = h.version
              ∧ subnetOfB h net = false := by
        cases hpn : parseNet r.prefixText with
        | none => exact Or.inl rfl
        | some net =>
          right
          refine ⟨net, rfl, hver r (List.mem_cons_self r l) net hpn, ?_⟩
          cases hsb : subnetOfB h net with
          | false => rfl
          | true => exact absurd ⟨net, hpn, hsb⟩ hrm
      rw [scanLoop_cons_skip h r l hlne hskip]
      exact ih (fun r2 h2 => hver r2 (List.mem_cons_of_mem r h2)) hex'
        (fun m hm => huniq m (List.mem_cons_of_mem r hm))

theorem parseNet_slash128 (t : Str) (n : Nat) (h : parseV6Addr t = some n) :
    parseNet (t ++ ['/', '1', '2', '8']) = some (hostNet 6 n) := by
  have hns : '/' ∉ t := parseV6Addr_no_slash t n h
  have hsplit : splitOnChar '/' (t ++ '/' :: ['1', '2', '8']) = [t, ['1', '2', '8']] := by
    rw [splitOnChar_append_sep '/' t ['1', '2', '8'] hns]
    rfl
  have h4 : parseV4Net (t ++ '/' :: ['1', '2', '8']) = none := by
    unfold parseV4Net
    rw [hsplit]
    show (do
      let v ← parseV4Addr t
      let pl ← parsePlen 32 ['1', '2', '8']
      if v % 2 ^ (32 - pl) = 0 then some (IPNet.mk 4 v pl) else none)
      = none
    have hpl : parsePlen 32 ['1', '2', '8'] = none := by decide
    cases hv : parseV4Addr t with
    | none => rfl
    | some w => simp [hpl]
  have h6 : parseV6Net (t ++ '/' :: ['1', '2', '8']) = some (hostNet 6 n) := by
    unfold parseV6Net
    rw [hsplit]
    show (do
      let v ← parseV6Addr t
      let pl ← parsePlen 128 ['1', '2', '8']
      if v % 2 ^ (128 - pl) = 0 then some (IPNet.mk 6 v pl) else none)
      = some (hostNet 6 n)
    rw [h]
    have hpl : parsePlen 128 ['1', '2', '8'] = some 128 := by decide
    simp only [Option.some_bind, hpl]
    simp [Nat.mod_one]
    rfl
  unfold parseNet
  rw [h4, h6]

theorem getixp_by_ipv6_eq (env : Env) (v6 : Str) (v6net : IPNet) (key : Str)
    (h1 : parseNet (v6 ++ ['/', '1', '2', '8']) = some v6net)
    (h2 : coarseKeyV6 v6 = some key) :
    getixp_by_ipv6 env v6
      = (match scanLoop v6net (getixpfxlist_by_start env key) with
        | Except.error e => Except.error e
        | Except.ok none => Except.ok none
        | Except.ok (some q) => Except.ok (getixp_by_ixpfx env q)) := by
  unfold getixp_by_ipv6
  rw [h1, h2]

theorem parseIPAddr_inv (t : Str) (ver n : Nat)
    (h : parseIPAddr t = some (ver, n)) :
    (ver = 4 ∧ parseV4Addr t = some n)
    ∨ (ver = 6 ∧ parseV4Addr t = none ∧ parseV6Addr t = some n) := by
  unfold parseIPAddr at h
  cases h4 : parseV4Addr t with
  | some v =>
    rw [h4] at h
    injection Option.some.inj h with h1 h2
    left
    exact ⟨h1.symm, by rw [h2]⟩
  | none =>
    rw [h4] at h
    change (match parseV6Addr t with
      | some v => some (6, v)
      | none => none) = some (ver, n) at h
    cases h6 : parseV6Addr t with
    | some v =>
      rw [h6] at h
      injection Option.some.inj h with h1 h2
      right
      exact ⟨h1.symm, rfl, by rw [h2]⟩
    | none =>
      rw [h6] at h
      cases h

theorem getixp_by_ip_eq_v4 (env : Env) (a : Str) (n : Nat)
    (h : parseIPAddr (unexplode_ip a) = some (4, n)) :
    getixp_by_ip env a = getixp_by_ipv4 env (unexplode_ip a) := by
  simp only [getixp_by_ip]
  rw [h]
  rfl

theorem getixp_by_ip_eq_v6 (env : Env) (a : Str) (n : Nat)
    (h : parseIPAddr (unexplode_ip a) = some (6, n)) :
    getixp_by_ip env a = getixp_by_ipv6 env (unexplode_ip a) := by
  simp only [getixp_by_ip]
  rw [h]
  rfl

theorem coarse_key_v4_eq (a key : Str) (n : Nat)
    (h : parseIPAddr (unexplode_ip a) = some (4, n))
    (hk : coarse_key a = some key) :
    v4CoarseKey (unexplode_ip a) = some key := by
  simp only [coarse_key] at hk
  rw [h] at hk
  exact hk

theorem coarse_key_v6_eq (a key : Str) (n : Nat)
    (h : parseIPAddr (unexplode_ip a) = some (6, n))
    (hk : coarse_key a = some key) :
    coarseKeyV6 (unexplode_ip a) = some key := by
  simp only [coarse_key] at hk
  rw [h] at hk
  exact hk

theorem one_ixp_chain (env : Env) (p : Ixpfx) (lan : Ixlan) (ixp : Ixp)
    (hlan : (getixlan_by_id env p.ixlan_id).head? = some lan)
    (hixp : (getixp_by_id env lan.ix_id).head? = some ixp) :
    one_ixp_by_ixpfx env p = some ixp := by
  unfold one_ixp_by_ixpfx
  cases hl : getixlan_by_id env p.ixlan_id with
  | nil => rw [hl] at hlan; cases hlan
  | cons l rest =>
    rw [hl] at hlan
    have hleq : l = lan := Option.some.inj (by simpa using hlan)
    subst hleq
    change (match getixp_by_id env l.ix_id with
      | [] => none
      | x :: _ => some x) = some ixp
    cases hx : getixp_by_id env l.ix_id with
    | nil => rw [hx] at hixp; cases hixp
    | cons x rest2 =>
      rw [hx] at hixp
      simpa using hixp

/-- C3 (amended): in a directory of same-family, pairwise non-overlapping
valid prefixes where the address (valid after normalisation) lies in
exactly one prefix, getixp_by_ip returns the ExchangePoint reached from
that containing prefix via its exchange-lan and exchange-point
identifiers -- provided the containing prefix's text starts with the
address's coarse key (the directory's storage convention), since the
coarse textual pre-filter otherwise never surfaces the prefix. -/
theorem c3_containing_prefix_resolves (env : Env) (a : Str) (ver n : Nat)
    (key : Str) (p : Ixpfx) (lan : Ixlan) (ixp : Ixp)
    (hparse : parseIPAddr (unexplode_ip a) = some (ver, n))
    (hmem : p ∈ env.pfxs)
    (hpmatch : candidateMatches ver n p = true)
    (huniq : ∀ q ∈ env.pfxs, candidateMatches ver n q = true → q = p)
    (hfam : ∀ q ∈ env.pfxs, candidateVersionOk ver q = true)
    (hkey : coarse_key a = some key)
    (hpref : List.isPrefixOf key p.prefixText = true)
    (hlan : (getixlan_by_id env p.ixlan_id).head? = some lan)
    (hixp : (getixp_by_id env lan.ix_id).head? = some ixp) :
    getixp_by_ip env a = Except.ok (some ixp) := by
  have hscan : scanLoop (hostNet ver n) (getixpfxlist_by_start env key)
      = Except.ok (some p) := by
    apply scanLoop_unique
    · intro r hr net hpn
      have hr2 := (List.mem_filter.mp hr).1
      have hv := hfam r hr2
      unfold candidateVersionOk at hv
      rw [hpn] at hv
      change decide (net.version = ver) = true at hv
      exact of_decide_eq_true hv
    · obtain ⟨net, hpn, hv, hsb⟩ := (candidateMatches_eq_true_iff ver n p).mp hpmatch
      have hpfil : p ∈ getixpfxlist_by_start env key :=
        List.mem_filter.mpr ⟨hmem, hpref⟩
      exact ⟨p, hpfil, net, hpn, hsb⟩
    · intro m hm net hpn hsb
      have hm2 := (List.mem_filter.mp hm).1
      have hv := hfam m hm2
      unfold candidateVersionOk at hv
      rw [hpn] at hv
      change decide (net.version = ver) = true at hv
      have hcm : candidateMatches ver n m = true := by
        unfold candidateMatches
        rw [hpn]
        change (decide (net.version = ver) && subnetOfB (hostNet ver n) net) = true
        rw [hv, hsb]
        rfl
      exact huniq m hm2 hcm
  have hchain : getixp_by_ixpfx env p = some ixp :=
    one_ixp_chain env p lan ixp hlan hixp
  rcases parseIPAddr_inv _ ver n hparse with ⟨hv4, hp4⟩ | ⟨hv6, hp4none, hp6⟩
  · subst hv4
    rw [getixp_by_ip_eq_v4 env a n hparse,
      getixp_by_ipv4_eq env _ (hostNet 4 n) key (parseNet_slash32 _ n hp4)
        (coarse_key_v4_eq a key n hparse hkey),
      hscan]
    show Except.ok (getixp_by_ixpfx env p) = Except.ok (some ixp)
    rw [hchain]
  · subst hv6
    rw [getixp_by_ip_eq_v6 env a n hparse,
      getixp_by_ipv6_eq env _ (hostNet 6 n) key (parseNet_slash128 _ n hp6)
        (coarse_key_v6_eq a key n hparse hkey),
      hscan]
    show Except.ok (getixp_by_ixpfx env p) = Except.ok (some ixp)
    rw [hchain]

/-- Counterexample for C3 as stated: the single valid prefix 198.0.0.0/8
contains the address 198.51.100.7 (and is trivially the only one), its
referential chain is intact, yet getixp_by_ip returns not-found, because
the coarse key "198.51" is not a textual prefix of "198.0.0.0/8" and the
candidate set is empty. -/
theorem c3_coarse_filter_miss_counterexample :
    parseIPAddr (unexplode_ip "198.51.100.7".data) = some (4, 3325256711)
    ∧ candidateMatches 4 3325256711 (Ixpfx.mk 1 10 "198.0.0.0/8".data) = true
    ∧ (∀ q ∈ [Ixpfx.mk 1 10 "198.0.0.0/8".data],
        candidateMatches 4 3325256711 q = true
          → q = Ixpfx.mk 1 10 "198.0.0.0/8".data)
    ∧ (getixlan_by_id
        (Env.mk [Ixpfx.mk 1 10 "198.0.0.0/8".data] [Ixlan.mk 10 7]
          [Ixp.mk 7 "BigIX".data]) 10).head? = some (Ixlan.mk 10 7)
    ∧ (getixp_by_id
        (Env.mk [Ixpfx.mk 1 10 "198.0.0.0/8".data] [Ixlan.mk 10 7]
          [Ixp.mk 7 "BigIX".data]) 7).head? = some (Ixp.mk 7 "BigIX".data)
    ∧ getixp_by_ip
        (Env.mk [Ixpfx.mk 1 10 "198.0.0.0/8".data] [Ixlan.mk 10 7]
          [Ixp.mk 7 "BigIX".data])
        "198.51.100.7".data = Except.ok none := by decide

/-- Witness for C3 (amended): two non-overlapping /24 prefixes, an
exploded address inside the first, intact chain; resolution returns the
first prefix's exchange point. -/
theorem c3_witness :
    getixp_by_ip
      (Env.mk
        [Ixpfx.mk 1 12 "198.51.100.0/24".data, Ixpfx.mk 2 13 "203.0.113.0/24".data]
        [Ixlan.mk 12 71, Ixlan.mk 13 72]
        [Ixp.mk 71 "AIX".data, Ixp.mk 72 "BIX".data])
      "198.051.100.007".data = Except.ok (some (Ixp.mk 71 "AIX".data)) :=
  c3_containing_prefix_resolves
    (Env.mk
      [Ixpfx.mk 1 12 "198.51.100.0/24".data, Ixpfx.mk 2 13 "203.0.113.0/24".data]
      [Ixlan.mk 12 71, Ixlan.mk 13 72]
      [Ixp.mk 71 "AIX".data, Ixp.mk 72 "BIX".data])
    "198.051.100.007".data 4 3325256711 "198.51".data
    (Ixpfx.mk 1 12 "198.51.100.0/24".data) (Ixlan.mk 12 71)
    (Ixp.mk 71 "AIX".data)
    (by decide) (by decide) (by decide) (by decide) (by decide) (by decide)
    (by decide) (by decide) (by decide)

theorem isDigit_toNat (c : Char) (h : c.isDigit = true) :
    48 ≤ c.toNat ∧ c.toNat ≤ 57 := by
  simp [Char.isDigit] at h
  exact h

theorem parseOctet_canon (s : Str) (v : Nat) (h : parseOctet s = some v) :
    s = if v < 10 then [Char.ofNat (48 + v)]
        else if v < 100 then [Char.ofNat (48 + v / 10), Char.ofNat (48 + v % 10)]
        else [Char.ofNat (48 + v / 100), Char.ofNat (48 + v / 10 % 10),
          Char.ofNat (48 + v % 10)] := by
  obtain ⟨hne, hd, hl, hz, hb, hv⟩ := parseOctet_inv s v h
  rcases s with _ | ⟨a, _ | ⟨b, _ | ⟨c, _ | ⟨d, r⟩⟩⟩⟩
  · exact absurd rfl hne
  · obtain ⟨ha1, ha2⟩ := isDigit_toNat a (List.all_eq_true.mp hd a (by simp))
    simp only [decVal, List.foldl] at hv
    rw [if_pos (by omega)]
    have : 48 + v = a.toNat := by omega
    rw [this, Char.ofNat_toNat]
  · obtain ⟨ha1, ha2⟩ := isDigit_toNat a (List.all_eq_true.mp hd a (by simp))
    obtain ⟨hb1, hb2⟩ := isDigit_toNat b (List.all_eq_true.mp hd b (by simp))
    have haz : a ≠ '0' := by
      rcases hz with hz | hz
      · simp at hz
      · simpa using hz
    have haz2 : a.toNat ≠ 48 := by
      intro he
      apply haz
      rw [← Char.ofNat_toNat a, he]
    simp only [decVal, List.foldl] at hv
    rw [if_neg (by omega), if_pos (by omega)]
    have h1 : 48 + v / 10 = a.toNat := by omega
    have h2 : 48 + v % 10 = b.toNat := by omega
    rw [h1, h2, Char.ofNat_toNat, Char.ofNat_toNat]
  · obtain ⟨ha1, ha2⟩ := isDigit_toNat a (List.all_eq_true.mp hd a (by simp))
    obtain ⟨hb1, hb2⟩ := isDigit_toNat b (List.all_eq_true.mp hd b (by simp))
    obtain ⟨hc1, hc2⟩ := isDigit_toNat c (List.all_eq_true.mp hd c (by simp))
    have haz : a ≠ '0' := by
      rcases hz with hz | hz
      · simp at hz
      · simpa using hz
    have haz2 : a.toNat ≠ 48 := by
      intro he
      apply haz
      rw [← Char.ofNat_toNat a, he]
    simp only [decVal, List.foldl] at hv
    rw [if_neg (by omega), if_neg (by omega)]
    have h1 : 48 + v / 100 = a.toNat := by omega
    have h2 : 48 + v / 10 % 10 = b.toNat := by omega
    have h3 : 48 + v % 10 = c.toNat := by omega
    rw [h1, h2, h3, Char.ofNat_toNat, Char.ofNat_toNat, Char.ofNat_toNat]
  · simp at hl

theorem parseOctet_inj (o1 o2 : Str) (v : Nat) (h1 : parseOctet o1 = some v)
    (h2 : parseOctet o2 = some v) : o1 = o2 := by
  rw [parseOctet_canon o1 v h1, parseOctet_canon o2 v h2]

theorem parseV4Addr_inj (s1 s2 : Str) (n : Nat)
    (h1 : parseV4Addr s1 = some n) (h2 : parseV4Addr s2 = some n) :
    s1 = s2 := by
  obtain ⟨a1, b1, c1, d1, va1, vb1, vc1, vd1, hs1, ha1, hb1, hc1, hd1, hn1⟩ :=
    parseV4Addr_inv s1 n h1
  obtain ⟨a2, b2, c2, d2, va2, vb2, vc2, vd2, hs2, ha2, hb2, hc2, hd2, hn2⟩ :=
    parseV4Addr_inv s2 n h2
  have hva1 : va1 ≤ 255 := by
    obtain ⟨_, _, _, _, hb, hv⟩ := parseOctet_inv _ _ ha1
    omega
  have hvb1 : vb1 ≤ 255 := by
    obtain ⟨_, _, _, _, hb, hv⟩ := parseOctet_inv _ _ hb1
    omega
  have hvc1 : vc1 ≤ 255 := by
    obtain ⟨_, _, _, _, hb, hv⟩ := parseOctet_inv _ _ hc1
    omega
  have hvd1 : vd1 ≤ 255 := by
    obtain ⟨_, _, _, _, hb, hv⟩ := parseOctet_inv _ _ hd1
    omega
  have hva2 : va2 ≤ 255 := by
    obtain ⟨_, _, _, _, hb, hv⟩ := parseOctet_inv _ _ ha2
    omega
  have hvb2 : vb2 ≤ 255 := by
    obtain ⟨_, _, _, _, hb, hv⟩ := parseOctet_inv _ _ hb2
    omega
  have hvc2 : vc2 ≤ 255 := by
    obtain ⟨_, _, _, _, hb, hv⟩ := parseOctet_inv _ _ hc2
    omega
  have hvd2 : vd2 ≤ 255 := by
    obtain ⟨_, _, _, _, hb, hv⟩ := parseOctet_inv _ _ hd2
    omega
  have heq : va1 = va2 ∧ vb1 = vb2 ∧ vc1 = vc2 ∧ vd1 = vd2 := by
    rw [hn1] at hn2
    refine ⟨by omega, by omega, by omega, by omega⟩
  obtain ⟨e1, e2, e3, e4⟩ := heq
  have ho1 : a1 = a2 := parseOctet_inj a1 a2 va1 ha1 (e1 ▸ ha2)
  have ho2 : b1 = b2 := parseOctet_inj b1 b2 vb1 hb1 (e2 ▸ hb2)
  have ho3 : c1 = c2 := parseOctet_inj c1 c2 vc1 hc1 (e3 ▸ hc2)
  have ho4 : d1 = d2 := parseOctet_inj d1 d2 vd1 hd1 (e4 ▸ hd2)
  rw [← joinWith_splitOnChar '.' s1, ← joinWith_splitOnChar '.' s2, hs1, hs2,
    ho1, ho2, ho3, ho4]

/-- C8: the coarse key computed on the resolution path from an address
equals the coarse key computed from any textual variant that denotes the
same address through the pipeline (normalises and parses to the same
version and value): for IPv4 the normalised text is uniquely determined by
the parsed value, and for IPv6 the key is computed from the exploded form
of the parsed value alone. -/
theorem c8_coarse_key_of_variant (v a : Str) (ver n : Nat)
    (hv : parseIPAddr (unexplode_ip v) = some (ver, n))
    (ha : parseIPAddr (unexplode_ip a) = some (ver, n)) :
    coarse_key v = coarse_key a := by
  rcases parseIPAddr_inv _ ver n hv with ⟨h4, hp4v⟩ | ⟨h6, _, hp6v⟩
  · subst h4
    rcases parseIPAddr_inv _ 4 n ha with ⟨_, hp4a⟩ | ⟨habs, _, _⟩
    · have heq : unexplode_ip v = unexplode_ip a :=
        parseV4Addr_inj _ _ n hp4v hp4a
      simp only [coarse_key]
      rw [heq]
    · exact absurd habs (by omega)
  · subst h6
    rcases parseIPAddr_inv _ 6 n ha with ⟨habs, _⟩ | ⟨_, _, hp6a⟩
    · exact absurd habs (by omega)
    · have hckv : coarse_key v = coarseKeyV6 (unexplode_ip v) := by
        simp only [coarse_key]
        rw [hv]
        rfl
      have hcka : coarse_key a = coarseKeyV6 (unexplode_ip a) := by
        simp only [coarse_key]
        rw [ha]
        rfl
      have hkv : coarseKeyV6 (unexplode_ip v)
          = some (joinWith ':'
            ((v6walk ((splitOnChar ':' (exploded 6 n)).take 6)).take 6)) := by
        unfold coarseKeyV6
        rw [hv]
      have hka : coarseKeyV6 (unexplode_ip a)
          = some (joinWith ':'
            ((v6walk ((splitOnChar ':' (exploded 6 n)).take 6)).take 6)) := by
        unfold coarseKeyV6
        rw [ha]
      rw [hckv, hcka, hkv, hka]

/-- Witness for C8: the zero-padded exploded variant 198.051.100.007 of
198.51.100.7 yields the same coarse key. -/
theorem c8_witness :
    coarse_key ("198.051.100.007").data = coarse_key ("198.51.100.7").data :=
  c8_coarse_key_of_variant ("198.051.100.007").data ("198.51.100.7").data
    4 3325256711 (by decide) (by decide)
